import Mathlib

/-!
Verification of the sliding-puzzle core (src/main.rs).

The board is a square grid of tile numbers; value 0 marks the empty slot.
Rust `Vec<Vec<usize>>` is embedded as `List (List Nat)`; operations that can
panic (index out of bounds, `unwrap`, remainder by zero, checked subtraction
underflow, `copy_from(...).expect`) are embedded as `Option`-valued
functions returning `none` on the panicking path.
-/

/-- A board: a list of rows (row 0 is the bottom row on screen), each row a
list of tile numbers. -/
abbrev Board := List (List Nat)

/-- Read cell at row `r`, column `c`; out-of-range reads default to 0. -/
def getCell (b : Board) (r c : Nat) : Nat := (b.getD r []).getD c 0

/-- Write `v` into the cell at row `r`, column `c`; out-of-range writes are
dropped (all uses in the embedding are in range). -/
def setCell (b : Board) (r c v : Nat) : Board := b.set r ((b.getD r []).set c v)

/-- Embeds `fn solved_board(size)`: fill `board[row][col]` with
`(size - row - 1) * size + col + 1`, then overwrite `board[0][size-1]` with 0. -/
def solved_board (size : Nat) : Board :=
  setCell ((List.range size).map fun row =>
    (List.range size).map fun col => (size - row - 1) * size + col + 1) 0 (size - 1) 0

/-- Embeds `Iterator::position`: index of the first element satisfying `p`. -/
def position (p : α → Bool) : List α → Option Nat
  | [] => none
  | a :: as => if p a then some 0 else (position p as).map (fun i => i + 1)

/-- Embeds `Model::index_empty`: row of the first row containing 0, then the
column of the first 0 in that row; `unwrap` panics (`none`) when absent. -/
def index_empty (b : Board) : Option (Nat × Nat) := do
  let iy ← position (fun r => r.contains 0) b
  let ix ← position (fun x => x == 0) (b.getD iy [])
  pure (ix, iy)

/-- Embeds `usize::abs_diff`. -/
def absDiff (a b : Nat) : Nat := if b ≤ a then a - b else b - a

/-- Embeds `Model::is_move_valid`: Manhattan distance to the empty slot is 1.
No bounds check is performed on `ix`, `iy`. -/
def is_move_valid (b : Board) (ix iy : Nat) : Option Bool :=
  (index_empty b).map (fun e => absDiff ix e.1 + absDiff iy e.2 == 1)

/-- Embeds `Model::try_move`: if the move is valid, copy the clicked piece
into the empty cell and zero the clicked cell; otherwise leave the board
unchanged.  Reading `board[iy][ix]` out of range panics (`none`). -/
def try_move (b : Board) (ix iy : Nat) : Option Board := do
  let v ← is_move_valid b ix iy
  if v then do
    let e ← index_empty b
    let piece ← (b[iy]?).bind (fun r => r[ix]?)
    pure (setCell (setCell b e.2 e.1 piece) iy ix 0)
  else
    pure b

example : solved_board 3 = [[7, 8, 0], [4, 5, 6], [1, 2, 3]] := by decide

/-- C1: the claim as stated is false: `solved_board 3` puts the empty cell in
row 0 (the bottom row), not in the top row. -/
theorem solved_board_claim_false :
    ¬ (solved_board 3 = [[7, 8, 9], [4, 5, 6], [1, 2, 0]]) := by decide

/-! Cell access lemmas for `setCell`. -/

theorem getD_row_setCell_ne (b : Board) (r c v r' : Nat) (h : r' ≠ r) :
    (setCell b r c v).getD r' [] = b.getD r' [] := by
  unfold setCell
  rw [List.getD_eq_getElem?_getD, List.getElem?_set_ne (Ne.symm h),
    List.getD_eq_getElem?_getD]

theorem getD_row_setCell_self (b : Board) (r c v : Nat) (hr : r < b.length) :
    (setCell b r c v).getD r [] = (b.getD r []).set c v := by
  unfold setCell
  rw [List.getD_eq_getElem?_getD, List.getElem?_set_self hr, Option.getD_some]

theorem getCell_setCell_self (b : Board) (r c v : Nat) (hr : r < b.length)
    (hc : c < (b.getD r []).length) :
    getCell (setCell b r c v) r c = v := by
  unfold getCell
  rw [getD_row_setCell_self b r c v hr, List.getD_eq_getElem?_getD,
    List.getElem?_set_self (by simpa using hc), Option.getD_some]

theorem getCell_setCell_row_ne (b : Board) (r c v r' c' : Nat) (h : r' ≠ r) :
    getCell (setCell b r c v) r' c' = getCell b r' c' := by
  unfold getCell
  rw [getD_row_setCell_ne b r c v r' h]

theorem getCell_setCell_col_ne (b : Board) (r c v c' : Nat) (h : c' ≠ c) :
    getCell (setCell b r c v) r c' = getCell b r c' := by
  by_cases hr : r < b.length
  · unfold getCell
    rw [getD_row_setCell_self b r c v hr, List.getD_eq_getElem?_getD,
      List.getElem?_set_ne (Ne.symm h), List.getD_eq_getElem?_getD]
    rw [List.getD_eq_getElem?_getD]
  · have hb : b.set r ((b.getD r []).set c v) = b :=
      List.set_eq_of_length_le (Nat.le_of_not_lt hr)
    unfold getCell setCell
    rw [hb]

theorem length_setCell (b : Board) (r c v : Nat) : (setCell b r c v).length = b.length := by
  simp [setCell]

/-- Row `r` of the freshly filled grid, before the empty slot is punched. -/
theorem getD_row_filled (n r : Nat) (hr : r < n) :
    (((List.range n).map fun row =>
      (List.range n).map fun col => (n - row - 1) * n + col + 1) : Board).getD r []
      = (List.range n).map fun col => (n - r - 1) * n + col + 1 := by
  rw [List.getD_eq_getElem?_getD, List.getElem?_map, List.getElem?_range hr]
  rfl

theorem getCell_filled (n r c : Nat) (hr : r < n) (hc : c < n) :
    getCell (((List.range n).map fun row =>
      (List.range n).map fun col => (n - row - 1) * n + col + 1) : Board) r c
      = (n - r - 1) * n + c + 1 := by
  unfold getCell
  rw [getD_row_filled n r hr, List.getD_eq_getElem?_getD, List.getElem?_map,
    List.getElem?_range hc]
  rfl

theorem getCell_solved (n r c : Nat) (hr : r < n) (hc : c < n) :
    getCell (solved_board n) r c
      = if r = 0 ∧ c = n - 1 then 0 else (n - r - 1) * n + c + 1 := by
  by_cases h : r = 0 ∧ c = n - 1
  · obtain ⟨h0, hcn⟩ := h
    subst h0; subst hcn
    rw [if_pos ⟨rfl, rfl⟩]
    apply getCell_setCell_self
    · simpa [solved_board] using hr
    · rw [getD_row_filled n 0 hr]
      simpa using Nat.sub_lt hr Nat.one_pos
  · rw [if_neg h, solved_board]
    rcases Decidable.em (r = 0) with h0 | h0
    · have hcne : c ≠ n - 1 := fun hcn => h ⟨h0, hcn⟩
      subst h0
      rw [getCell_setCell_col_ne _ _ _ _ _ hcne]
      exact getCell_filled n 0 c hr hc
    · rw [getCell_setCell_row_ne _ _ _ _ _ _ h0]
      exact getCell_filled n r c hr hc

/-- C1 (amended): `solved_board n` holds `(n - row - 1) * n + col + 1` at cell
(row, col) — row 0 being the bottom row — except cell (0, n-1), the
bottom-right cell, which holds 0; in particular `solved_board 3` is
`[[7,8,0],[4,5,6],[1,2,3]]` listed from row 0 upward. -/
theorem solved_board_cells (n r c : Nat) (hr : r < n) (hc : c < n) :
    (getCell (solved_board n) r c
      = if r = 0 ∧ c = n - 1 then 0 else (n - r - 1) * n + c + 1)
    ∧ solved_board 3 = [[7, 8, 0], [4, 5, 6], [1, 2, 3]] :=
  ⟨getCell_solved n r c hr hc, by decide⟩

/-- C1 witness: the amended description evaluated on the 4×4 grid at the
bottom-right cell and at cell (2, 1). -/
theorem solved_board_cells_witness :
    (getCell (solved_board 4) 0 3 = if (0 : Nat) = 0 ∧ (3 : Nat) = 4 - 1 then 0 else (4 - 0 - 1) * 4 + 3 + 1)
    ∧ solved_board 3 = [[7, 8, 0], [4, 5, 6], [1, 2, 3]] :=
  solved_board_cells 4 0 3 (by decide) (by decide)

/-! Invariant predicates and the characterization of `index_empty`. -/

/-- The board is an `n` by `n` grid. -/
def dims (b : Board) (n : Nat) : Prop := b.length = n ∧ ∀ r ∈ b, r.length = n

/-- The board holds exactly one zero, at column `ex` of row `ey`. -/
def uniqueZeroAt (b : Board) (ex ey : Nat) : Prop :=
  ey < b.length ∧ ex < (b.getD ey []).length ∧ getCell b ey ex = 0 ∧
    ∀ r < b.length, ∀ c < (b.getD r []).length, getCell b r c = 0 → c = ex ∧ r = ey

instance (b : Board) (n : Nat) : Decidable (dims b n) :=
  inferInstanceAs (Decidable (b.length = n ∧ ∀ r ∈ b, r.length = n))

instance (b : Board) (ex ey : Nat) : Decidable (uniqueZeroAt b ex ey) :=
  inferInstanceAs (Decidable (ey < b.length ∧ ex < (b.getD ey []).length ∧
    getCell b ey ex = 0 ∧
    ∀ r < b.length, ∀ c < (b.getD r []).length, getCell b r c = 0 → c = ex ∧ r = ey))

theorem getD_eq_getElem_of_lt (l : List Nat) (c : Nat) (hc : c < l.length) :
    l.getD c 0 = l[c] := by
  rw [List.getD_eq_getElem?_getD, List.getElem?_eq_getElem hc, Option.getD_some]

theorem row_getElem?_eq (b : Board) (r c : Nat) (hc : c < (b.getD r []).length) :
    (b.getD r [])[c]? = some (getCell b r c) := by
  rw [List.getElem?_eq_getElem hc]
  show some ((b.getD r [])[c]) = some ((b.getD r []).getD c 0)
  rw [getD_eq_getElem_of_lt (b.getD r []) c hc]

theorem position_eq_some_of (p : α → Bool) (l : List α) (i : Nat) (hi : i < l.length)
    (hp : ∀ a, l[i]? = some a → p a = true)
    (hj : ∀ j, j < i → ∀ a, l[j]? = some a → p a = false) :
    position p l = some i := by
  induction l generalizing i with
  | nil => cases hi
  | cons x xs ih =>
    cases i with
    | zero =>
      have hpx : p x = true := hp x (by simp)
      simp only [position]
      rw [if_pos hpx]
    | succ m =>
      have hx : p x = false := hj 0 (Nat.succ_pos m) x (by simp)
      simp only [position]
      rw [if_neg (by simp [hx]),
        ih m (Nat.lt_of_succ_lt_succ hi)
          (fun a ha => hp a (by simpa using ha))
          (fun j hlt a ha => hj (j + 1) (Nat.succ_lt_succ hlt) a (by simpa using ha))]
      rfl

theorem position_some_mem (p : α → Bool) (l : List α) (i : Nat)
    (h : position p l = some i) : ∃ a, l[i]? = some a ∧ p a = true := by
  induction l generalizing i with
  | nil => cases h
  | cons x xs ih =>
    simp only [position] at h
    by_cases hx : p x = true
    · rw [if_pos hx] at h
      cases h
      exact ⟨x, by simp, hx⟩
    · rw [if_neg hx] at h
      cases hmatch : position p xs with
      | none => rw [hmatch] at h; cases h
      | some k =>
        rw [hmatch] at h
        simp only [Option.map_some'] at h
        cases h
        obtain ⟨a, ha, hpa⟩ := ih k hmatch
        exact ⟨a, by simpa using ha, hpa⟩

theorem index_empty_of_uniqueZeroAt (b : Board) (ex ey : Nat)
    (h : uniqueZeroAt b ex ey) : index_empty b = some (ex, ey) := by
  obtain ⟨hey, hex, hz, hu⟩ := h
  have hrowp : position (fun r => r.contains 0) b = some ey := by
    apply position_eq_some_of _ _ _ hey
    · intro a ha
      show (a.contains 0) = true
      have haeq : b.getD ey [] = a := by
        rw [List.getD_eq_getElem?_getD, ha, Option.getD_some]
      have hmem : (0 : Nat) ∈ a := by
        rw [← haeq]
        exact List.mem_iff_getElem?.mpr ⟨ex, by rw [row_getElem?_eq b ey ex hex, hz]⟩
      simpa using List.contains_iff_exists_mem_beq.mpr ⟨0, hmem, by simp⟩
    · intro j hjlt a ha
      show (a.contains 0) = false
      cases hval : a.contains 0 with
      | false => rfl
      | true =>
        obtain ⟨z, hzmem, hbeq⟩ := List.contains_iff_exists_mem_beq.mp hval
        have hz0 : (0 : Nat) = z := by simpa using hbeq
        subst hz0
        obtain ⟨c, hc⟩ := List.mem_iff_getElem?.mp hzmem
        obtain ⟨hclen, hcget⟩ := List.getElem?_eq_some_iff.mp hc
        have haeq : b.getD j [] = a := by
          rw [List.getD_eq_getElem?_getD, ha, Option.getD_some]
        have hjlen : j < b.length := Nat.lt_trans hjlt hey
        have hc0 : getCell b j c = 0 := by
          unfold getCell
          rw [haeq, List.getD_eq_getElem?_getD, List.getElem?_eq_getElem hclen, hcget]
          rfl
        have hje : j = ey := (hu j hjlen c (by rw [haeq]; exact hclen) hc0).2
        exact absurd (hje ▸ hjlt) (Nat.lt_irrefl ey)
  have hcolp : position (fun x => x == 0) (b.getD ey []) = some ex := by
    apply position_eq_some_of _ _ _ hex
    · intro a ha
      rw [row_getElem?_eq b ey ex hex, hz] at ha
      cases ha
      rfl
    · intro j hjlt a ha
      have hjlen : j < (b.getD ey []).length := Nat.lt_trans hjlt hex
      rw [row_getElem?_eq b ey j hjlen] at ha
      cases ha
      show (getCell b ey j == 0) = false
      cases hval : getCell b ey j == 0 with
      | false => rfl
      | true =>
        have h0 : getCell b ey j = 0 := by simpa using hval
        have hje : j = ex := (hu ey hey j hjlen h0).1
        exact absurd (hje ▸ hjlt) (Nat.lt_irrefl ex)
  simp only [index_empty, bind, hrowp, Option.some_bind, hcolp]
  rfl

/-- C2: on a board whose unique zero sits at column `ex`, row `ey`,
`is_move_valid (col, row)` returns true exactly when the Manhattan distance
`|col - ex| + |row - ey|` is 1; in particular the empty cell itself (distance
0) is rejected, as is any diagonal neighbour (distance 2). -/
theorem is_move_valid_iff_manhattan (b : Board) (n ex ey ix iy : Nat)
    (_hd : dims b n) (hz : uniqueZeroAt b ex ey) (_hix : ix < n) (_hiy : iy < n) :
    (is_move_valid b ix iy = some true ↔ absDiff ix ex + absDiff iy ey = 1)
    ∧ is_move_valid b ex ey = some false
    ∧ (absDiff ix ex = 1 → absDiff iy ey = 1 → is_move_valid b ix iy = some false) := by
  refine ⟨?_, ?_, ?_⟩
  · rw [is_move_valid, index_empty_of_uniqueZeroAt b ex ey hz]
    simp [beq_iff_eq]
  · rw [is_move_valid, index_empty_of_uniqueZeroAt b ex ey hz]
    simp [absDiff]
  · intro h1 h2
    rw [is_move_valid, index_empty_of_uniqueZeroAt b ex ey hz]
    simp [h1, h2]

/-- C2 witness: on the solved 3×3 board the zero is at column 2 of row 0;
the cell at column 2, row 1 is orthogonally adjacent to it. -/
theorem is_move_valid_iff_manhattan_witness :
    ((is_move_valid (solved_board 3) 2 1 = some true ↔ absDiff 2 2 + absDiff 1 0 = 1)
    ∧ is_move_valid (solved_board 3) 2 0 = some false
    ∧ (absDiff 2 2 = 1 → absDiff 1 0 = 1 → is_move_valid (solved_board 3) 2 1 = some false)) :=
  is_move_valid_iff_manhattan (solved_board 3) 3 2 0 2 1 (by decide) (by decide)
    (by decide) (by decide)

/-! Behaviour of `try_move` (C3). -/

theorem getD_row_eq_getElem (b : Board) (r : Nat) (hr : r < b.length) :
    b.getD r [] = b[r] := by
  rw [List.getD_eq_getElem?_getD, List.getElem?_eq_getElem hr, Option.getD_some]

theorem dims_row_length (b : Board) (n r : Nat) (hd : dims b n) (hr : r < n) :
    (b.getD r []).length = n := by
  obtain ⟨hlen, hrows⟩ := hd
  have hrb : r < b.length := by rw [hlen]; exact hr
  rw [getD_row_eq_getElem b r hrb]
  exact hrows _ (List.getElem_mem hrb)

theorem dims_setCell (b : Board) (n r c v : Nat) (hd : dims b n) :
    dims (setCell b r c v) n := by
  obtain ⟨hlen, hrows⟩ := hd
  by_cases hr : r < b.length
  · refine ⟨by rw [length_setCell]; exact hlen, ?_⟩
    intro row hrow
    unfold setCell at hrow
    rcases List.mem_or_eq_of_mem_set hrow with hmem | heq
    · exact hrows _ hmem
    · subst heq
      rw [List.length_set, getD_row_eq_getElem b r hr]
      exact hrows _ (List.getElem_mem hr)
  · have hb : setCell b r c v = b := by
      unfold setCell
      exact List.set_eq_of_length_le (Nat.le_of_not_lt hr)
    rw [hb]
    exact ⟨hlen, hrows⟩

theorem piece_read_eq (b : Board) (n ix iy : Nat) (hd : dims b n)
    (hix : ix < n) (hiy : iy < n) :
    (b[iy]?).bind (fun r => r[ix]?) = some (getCell b iy ix) := by
  have hiyb : iy < b.length := by rw [hd.1]; exact hiy
  have hrow : b[iy]? = some (b.getD iy []) := by
    rw [List.getElem?_eq_getElem hiyb, getD_row_eq_getElem b iy hiyb]
  rw [hrow, Option.some_bind]
  exact row_getElem?_eq b iy ix (by rw [dims_row_length b n iy hd hiy]; exact hix)

theorem try_move_eq_of_valid (b : Board) (n ex ey ix iy : Nat) (hd : dims b n)
    (hz : uniqueZeroAt b ex ey) (hix : ix < n) (hiy : iy < n)
    (hv : is_move_valid b ix iy = some true) :
    try_move b ix iy = some (setCell (setCell b ey ex (getCell b iy ix)) iy ix 0) := by
  have hie := index_empty_of_uniqueZeroAt b ex ey hz
  have hpiece := piece_read_eq b n ix iy hd hix hiy
  simp only [try_move, bind, hv, Option.some_bind, eq_self_iff_true, if_true, hie, hpiece]
  rfl

theorem try_move_eq_of_invalid (b : Board) (ix iy : Nat)
    (hv : is_move_valid b ix iy = some false) :
    try_move b ix iy = some b := by
  simp only [try_move, bind, hv, Option.some_bind, Bool.false_eq_true, if_false]
  rfl

theorem absDiff_dist_one_ne (ix ex iy ey : Nat)
    (hdist : absDiff ix ex + absDiff iy ey = 1) : ¬(iy = ey ∧ ix = ex) := by
  rintro ⟨h1, h2⟩
  subst h1; subst h2
  simp [absDiff] at hdist

/-- C3: on a board whose unique zero is at (ex, ey): when
`is_move_valid (col, row)` holds beforehand, `try_move (col, row)` moves the
clicked value into the empty cell, zeroes the clicked cell and leaves every
other cell unchanged; when it does not hold, `try_move` returns the board
unchanged. -/
theorem try_move_spec (b : Board) (n ex ey ix iy : Nat) (hd : dims b n)
    (hz : uniqueZeroAt b ex ey) (hix : ix < n) (hiy : iy < n) :
    (is_move_valid b ix iy = some true →
      ∃ b', try_move b ix iy = some b'
        ∧ getCell b' ey ex = getCell b iy ix
        ∧ getCell b' iy ix = 0
        ∧ ∀ r c, ¬(r = ey ∧ c = ex) → ¬(r = iy ∧ c = ix) →
            getCell b' r c = getCell b r c)
    ∧ (is_move_valid b ix iy = some false → try_move b ix iy = some b) := by
  constructor
  · intro hv
    have heq := try_move_eq_of_valid b n ex ey ix iy hd hz hix hiy hv
    have hie := index_empty_of_uniqueZeroAt b ex ey hz
    obtain ⟨hey, hex, hz0, hu⟩ := hz
    have hdist : absDiff ix ex + absDiff iy ey = 1 := by
      rw [is_move_valid, hie, Option.map_some'] at hv
      injection hv with hv'
      simpa using hv'
    have hne := absDiff_dist_one_ne ix ex iy ey hdist
    have heyn : ey < n := by rw [← hd.1]; exact hey
    refine ⟨_, heq, ?_, ?_, ?_⟩
    · by_cases hiyey : iy = ey
      · subst hiyey
        have hixex : ix ≠ ex := fun h => hne ⟨rfl, h⟩
        rw [getCell_setCell_col_ne _ iy ix 0 ex (Ne.symm hixex)]
        exact getCell_setCell_self b iy ex _ hey hex
      · rw [getCell_setCell_row_ne _ iy ix 0 ey ex (fun h => hiyey (Eq.symm h))]
        exact getCell_setCell_self b ey ex _ hey hex
    · apply getCell_setCell_self
      · rw [length_setCell, hd.1]
        exact hiy
      · rw [dims_row_length (setCell b ey ex (getCell b iy ix)) n iy
          (dims_setCell b n ey ex _ hd) hiy]
        exact hix
    · intro r c h1 h2
      by_cases hriy : r = iy
      · subst hriy
        have hcix : c ≠ ix := fun h => h2 ⟨rfl, h⟩
        rw [getCell_setCell_col_ne _ r ix 0 c hcix]
        by_cases hrey : r = ey
        · subst hrey
          have hcex : c ≠ ex := fun h => h1 ⟨rfl, h⟩
          rw [getCell_setCell_col_ne b r ex _ c hcex]
        · rw [getCell_setCell_row_ne b ey ex _ r c hrey]
      · rw [getCell_setCell_row_ne _ iy ix 0 r c hriy]
        by_cases hrey : r = ey
        · subst hrey
          have hcex : c ≠ ex := fun h => h1 ⟨rfl, h⟩
          rw [getCell_setCell_col_ne b r ex _ c hcex]
        · rw [getCell_setCell_row_ne b ey ex _ r c hrey]
  · intro hv
    exact try_move_eq_of_invalid b ix iy hv

/-- C3 witness: the legal move at column 2, row 1 on the solved 3×3 board,
and its conclusion instantiated there. -/
theorem try_move_spec_witness :
    ((is_move_valid (solved_board 3) 2 1 = some true →
      ∃ b', try_move (solved_board 3) 2 1 = some b'
        ∧ getCell b' 0 2 = getCell (solved_board 3) 1 2
        ∧ getCell b' 1 2 = 0
        ∧ ∀ r c, ¬(r = 0 ∧ c = 2) → ¬(r = 1 ∧ c = 2) →
            getCell b' r c = getCell (solved_board 3) r c)
    ∧ (is_move_valid (solved_board 3) 2 1 = some false →
        try_move (solved_board 3) 2 1 = some (solved_board 3))) :=
  try_move_spec (solved_board 3) 3 2 0 2 1 (by decide) (by decide) (by decide) (by decide)

/-! Move reversibility (C8). -/

theorem set_getElem_self_eq {α : Type} (l : List α) (i : Nat) (hi : i < l.length) :
    l.set i l[i] = l := by
  apply List.ext_getElem?
  intro n
  by_cases hn : n = i
  · subst hn
    rw [List.getElem?_set_self hi, List.getElem?_eq_getElem hi]
  · rw [List.getElem?_set_ne (fun h => hn (Eq.symm h))]

theorem setCell_getCell_self (b : Board) (r c : Nat) (hr : r < b.length)
    (hc : c < (b.getD r []).length) :
    setCell b r c (getCell b r c) = b := by
  unfold setCell getCell
  rw [getD_eq_getElem_of_lt (b.getD r []) c hc, set_getElem_self_eq (b.getD r []) c hc,
    getD_row_eq_getElem b r hr, set_getElem_self_eq b r hr]

theorem setCell_setCell_same (b : Board) (r c v w : Nat) :
    setCell (setCell b r c v) r c w = setCell b r c w := by
  by_cases hr : r < b.length
  · show (setCell b r c v).set r (((setCell b r c v).getD r []).set c w)
      = b.set r ((b.getD r []).set c w)
    rw [getD_row_setCell_self b r c v hr, List.set_set]
    show (b.set r ((b.getD r []).set c v)).set r ((b.getD r []).set c w) = _
    rw [List.set_set]
  · have hb : ∀ u : Nat, setCell b r c u = b := fun u =>
      List.set_eq_of_length_le (Nat.le_of_not_lt hr)
    rw [hb v, hb w]

theorem absDiff_comm (a b : Nat) : absDiff a b = absDiff b a := by
  unfold absDiff
  rcases Nat.le_total a b with h | h
  · rcases Nat.eq_or_lt_of_le h with h1 | h1
    · subst h1; simp
    · rw [if_neg (by omega), if_pos h]
  · rcases Nat.eq_or_lt_of_le h with h1 | h1
    · subst h1; simp
    · rw [if_pos h, if_neg (by omega)]

theorem uniqueZeroAt_after_move (b : Board) (n ex ey ix iy : Nat) (hd : dims b n)
    (hz : uniqueZeroAt b ex ey) (hix : ix < n) (hiy : iy < n)
    (hne : ¬(iy = ey ∧ ix = ex)) :
    uniqueZeroAt (setCell (setCell b ey ex (getCell b iy ix)) iy ix 0) ix iy := by
  obtain ⟨hey, hex, hz0, hu⟩ := hz
  have heyn : ey < n := by rw [← hd.1]; exact hey
  have hexn : ex < n := by rw [← dims_row_length b n ey hd heyn]; exact hex
  set p := getCell b iy ix with hp
  have hpne : p ≠ 0 := by
    intro h0
    have hiyb : iy < b.length := by rw [hd.1]; exact hiy
    have hixb : ix < (b.getD iy []).length := by
      rw [dims_row_length b n iy hd hiy]; exact hix
    obtain ⟨hc, hr⟩ := hu iy hiyb ix hixb (hp ▸ h0)
    exact hne ⟨hr, hc⟩
  have hd' : dims (setCell (setCell b ey ex p) iy ix 0) n :=
    dims_setCell _ n iy ix 0 (dims_setCell b n ey ex p hd)
  have hlen' : (setCell (setCell b ey ex p) iy ix 0).length = n := hd'.1
  have hiyb' : iy < (setCell (setCell b ey ex p) iy ix 0).length := by
    rw [hlen']; exact hiy
  have hrow' : ∀ r, r < n →
      ((setCell (setCell b ey ex p) iy ix 0).getD r []).length = n := fun r hr =>
    dims_row_length _ n r hd' hr
  refine ⟨hiyb', by rw [hrow' iy hiy]; exact hix, ?_, ?_⟩
  · apply getCell_setCell_self
    · rw [(dims_setCell b n ey ex p hd).1]
      exact hiy
    · rw [dims_row_length (setCell b ey ex p) n iy (dims_setCell b n ey ex p hd) hiy]
      exact hix
  · intro r hrb c hcb hc0
    have hrn : r < n := by rw [← hlen']; exact hrb
    have hcn : c < n := by rw [← hrow' r hrn]; exact hcb
    by_cases hriy : r = iy ∧ c = ix
    · exact ⟨hriy.2, hriy.1⟩
    · exfalso
      by_cases hrey : r = ey ∧ c = ex
      · obtain ⟨h1, h2⟩ := hrey
        have hpe : getCell (setCell (setCell b ey ex p) iy ix 0) ey ex = p := by
          by_cases hiyey : iy = ey
          · subst hiyey
            have hixex : ix ≠ ex := fun h => hne ⟨rfl, h⟩
            rw [getCell_setCell_col_ne _ iy ix 0 ex (Ne.symm hixex)]
            exact getCell_setCell_self b iy ex p hey hex
          · rw [getCell_setCell_row_ne _ iy ix 0 ey ex (fun h => hiyey (Eq.symm h))]
            exact getCell_setCell_self b ey ex p hey hex
        rw [h1, h2] at hc0
        exact hpne (hpe.symm.trans hc0)
      · have hunch : getCell (setCell (setCell b ey ex p) iy ix 0) r c = getCell b r c := by
          by_cases hr1 : r = iy
          · subst hr1
            have hc1 : c ≠ ix := fun h => hriy ⟨rfl, h⟩
            rw [getCell_setCell_col_ne _ r ix 0 c hc1]
            by_cases hr2 : r = ey
            · subst hr2
              have hc2 : c ≠ ex := fun h => hrey ⟨rfl, h⟩
              rw [getCell_setCell_col_ne b r ex p c hc2]
            · rw [getCell_setCell_row_ne b ey ex p r c hr2]
          · rw [getCell_setCell_row_ne _ iy ix 0 r c hr1]
            by_cases hr2 : r = ey
            · subst hr2
              have hc2 : c ≠ ex := fun h => hrey ⟨rfl, h⟩
              rw [getCell_setCell_col_ne b r ex p c hc2]
            · rw [getCell_setCell_row_ne b ey ex p r c hr2]
        have hrb2 : r < b.length := by rw [hd.1]; exact hrn
        have hcb2 : c < (b.getD r []).length := by
          rw [dims_row_length b n r hd hrn]; exact hcn
        obtain ⟨hcx, hry⟩ := hu r hrb2 c hcb2 (by rw [← hunch]; exact hc0)
        exact hrey ⟨hry, hcx⟩

theorem getCell_moved_at_empty (b : Board) (ex ey ix iy p : Nat)
    (hey : ey < b.length) (hex : ex < (b.getD ey []).length)
    (hne : ¬(iy = ey ∧ ix = ex)) :
    getCell (setCell (setCell b ey ex p) iy ix 0) ey ex = p := by
  by_cases hiyey : iy = ey
  · have hixex : ix ≠ ex := fun h => hne ⟨hiyey, h⟩
    rw [← hiyey]
    rw [getCell_setCell_col_ne _ iy ix 0 ex (Ne.symm hixex)]
    exact getCell_setCell_self b iy ex p (by rw [hiyey]; exact hey) (by rw [hiyey]; exact hex)
  · rw [getCell_setCell_row_ne _ iy ix 0 ey ex (fun h => hiyey (Eq.symm h))]
    exact getCell_setCell_self b ey ex p hey hex

theorem getCell_set_other (b : Board) (ex ey ix iy p : Nat)
    (hne : ¬(iy = ey ∧ ix = ex)) :
    getCell (setCell b ey ex p) iy ix = getCell b iy ix := by
  by_cases hiyey : iy = ey
  · have hixex : ix ≠ ex := fun h => hne ⟨hiyey, h⟩
    rw [hiyey]
    exact getCell_setCell_col_ne b ey ex p ix hixex
  · exact getCell_setCell_row_ne b ey ex p iy ix hiyey

/-- C8: a legal move (target at Manhattan distance 1 from the unique zero)
followed by the inverse move (targeting the zero's previous position)
restores the original grid exactly. -/
theorem try_move_reversible (b : Board) (n ex ey ix iy : Nat) (hd : dims b n)
    (hz : uniqueZeroAt b ex ey) (hix : ix < n) (hiy : iy < n)
    (hdist : absDiff ix ex + absDiff iy ey = 1) :
    ∃ b', try_move b ix iy = some b' ∧ try_move b' ex ey = some b := by
  have hie := index_empty_of_uniqueZeroAt b ex ey hz
  have hv : is_move_valid b ix iy = some true := by
    rw [is_move_valid, hie, Option.map_some']
    simp [hdist]
  have heq := try_move_eq_of_valid b n ex ey ix iy hd hz hix hiy hv
  refine ⟨_, heq, ?_⟩
  have hne := absDiff_dist_one_ne ix ex iy ey hdist
  have hz' := uniqueZeroAt_after_move b n ex ey ix iy hd hz hix hiy hne
  have hdA : dims (setCell b ey ex (getCell b iy ix)) n :=
    dims_setCell b n ey ex _ hd
  have hd' : dims (setCell (setCell b ey ex (getCell b iy ix)) iy ix 0) n :=
    dims_setCell _ n iy ix 0 hdA
  have heyn : ey < n := by rw [← hd.1]; exact hz.1
  have hexn : ex < n := by rw [← dims_row_length b n ey hd heyn]; exact hz.2.1
  have hdist2 : absDiff ex ix + absDiff ey iy = 1 := by
    rw [absDiff_comm ex ix, absDiff_comm ey iy]
    exact hdist
  have hv2 : is_move_valid (setCell (setCell b ey ex (getCell b iy ix)) iy ix 0) ex ey
      = some true := by
    rw [is_move_valid, index_empty_of_uniqueZeroAt _ ix iy hz', Option.map_some']
    simp [hdist2]
  have heq2 := try_move_eq_of_valid _ n ix iy ex ey hd' hz' hexn heyn hv2
  rw [heq2]
  have hpe : getCell (setCell (setCell b ey ex (getCell b iy ix)) iy ix 0) ey ex
      = getCell b iy ix :=
    getCell_moved_at_empty b ex ey ix iy (getCell b iy ix) hz.1 hz.2.1 hne
  rw [hpe]
  rw [setCell_setCell_same (setCell b ey ex (getCell b iy ix)) iy ix 0 (getCell b iy ix)]
  have hgen : ∀ x : Board, getCell x iy ix = getCell b iy ix → iy < x.length →
      ix < (x.getD iy []).length → setCell x iy ix (getCell b iy ix) = x := by
    intro x hgx hl1 hl2
    rw [← hgx]
    exact setCell_getCell_self x iy ix hl1 hl2
  rw [hgen (setCell b ey ex (getCell b iy ix))
    (getCell_set_other b ex ey ix iy (getCell b iy ix) hne)
    (by rw [hdA.1]; exact hiy)
    (by rw [dims_row_length _ n iy hdA hiy]; exact hix)]
  rw [setCell_setCell_same b ey ex (getCell b iy ix) 0]
  have hz0gen : ∀ v : Nat, v = getCell b ey ex → setCell b ey ex v = b := by
    intro v hv0
    rw [hv0]
    exact setCell_getCell_self b ey ex hz.1 hz.2.1
  rw [hz0gen 0 (Eq.symm hz.2.2.1)]

/-- C8 witness: on the solved 3×3 board, moving the tile at column 2, row 1
into the empty bottom-right cell and then moving it back restores the board. -/
theorem try_move_reversible_witness :
    ∃ b', try_move (solved_board 3) 2 1 = some b'
      ∧ try_move b' 2 0 = some (solved_board 3) :=
  try_move_reversible (solved_board 3) 3 2 0 2 1 (by decide) (by decide) (by decide)
    (by decide) (by decide)

/-! Reset (C7), unchecked bounds (C9), image cycling on an empty list (C10). -/

/-- Embeds `Model::reset`: replaces the board with `solved_board grid_size`,
ignoring the current board contents. -/
def reset (grid_size : Nat) (_b : Board) : Board := solved_board grid_size

/-- A sequence of `try_move` calls, propagating any panic. -/
def applyMoves (b : Board) : List (Nat × Nat) → Option Board
  | [] => some b
  | m :: ms => (try_move b m.1 m.2).bind (fun b2 => applyMoves b2 ms)

/-- C7: after any sequence of `try_move` calls starting from the solved board,
`reset` yields bit-for-bit the board a fresh `solved_board` builds, and a
second `reset` changes nothing further (idempotence). -/
theorem reset_restores_solved (n : Nat) (moves : List (Nat × Nat)) (b : Board)
    (_h : applyMoves (solved_board n) moves = some b) :
    reset n b = solved_board n ∧ reset n (reset n b) = reset n b :=
  ⟨rfl, rfl⟩

/-- C7 witness: one legal move on the 3×3 board, then reset. -/
theorem reset_restores_solved_witness :
    reset 3 [[7, 8, 6], [4, 5, 0], [1, 2, 3]] = solved_board 3
    ∧ reset 3 (reset 3 [[7, 8, 6], [4, 5, 0], [1, 2, 3]])
        = reset 3 [[7, 8, 6], [4, 5, 0], [1, 2, 3]] :=
  reset_restores_solved 3 [(2, 1)] [[7, 8, 6], [4, 5, 0], [1, 2, 3]] (by decide)

/-- C9: no bounds check before the distance computation: on the solved 3×3
board (zero at column 2 of row 0) the out-of-range column 3 passes
`is_move_valid`, and `try_move` then panics on the out-of-range read
(`none`) instead of cleanly rejecting the coordinate and preserving state. -/
theorem out_of_bounds_not_rejected :
    (solved_board 3).length = 3
    ∧ is_move_valid (solved_board 3) 3 0 = some true
    ∧ try_move (solved_board 3) 3 0 = none := by decide

/-- Embeds the index computation of `Model::next_image`:
`(current + 1) % image_list.len()`; the Rust `%` operator panics when the
divisor `len` is 0 (`none`). -/
def next_image_index (len current : Nat) : Option Nat :=
  if len = 0 then none else some ((current + 1) % len)

/-- Embeds the index computation of `Model::previous_image`: when the current
index is 0 it becomes `image_list.len() - 1`, otherwise it is decremented;
the checked subtraction `len - 1` underflows and panics when `len` is 0
(`none`).  (In a release build the subtraction wraps instead and the
following `image_list[index]` lookup in `change_image` panics.) -/
def previous_image_index (len current : Nat) : Option Nat :=
  if current = 0 then (if len = 0 then none else some (len - 1))
  else some (current - 1)

/-- C10: with an empty image list (length 0, current index 0), advancing
panics on the remainder-by-zero and going back panics on the underflowing
subtraction; neither is a clean no-op. -/
theorem empty_image_list_panics :
    next_image_index 0 0 = none ∧ previous_image_index 0 0 = none := by decide

/-! Flat-list view of the grid, for the permutation invariant (C4). -/

theorem getD_append_left (s t : List Nat) (i : Nat) (h : i < s.length) :
    (s ++ t).getD i 0 = s.getD i 0 := by
  rw [List.getD_eq_getElem?_getD, List.getElem?_append_left h, List.getD_eq_getElem?_getD]

theorem getD_append_add (s t : List Nat) (i : Nat) :
    (s ++ t).getD (s.length + i) 0 = t.getD i 0 := by
  rw [List.getD_eq_getElem?_getD, List.getElem?_append_right (Nat.le_add_right _ _),
    Nat.add_sub_cancel_left, List.getD_eq_getElem?_getD]

theorem flatten_length_eq (b : Board) (n : Nat) (hrows : ∀ row ∈ b, row.length = n) :
    b.flatten.length = b.length * n := by
  induction b with
  | nil => simp
  | cons row rest ih =>
    rw [List.flatten_cons, List.length_append, hrows row (by simp),
      ih (fun rr hrr => hrows rr (by simp [hrr])), List.length_cons, Nat.succ_mul,
      Nat.add_comm]

theorem setCell_cons_zero (row : List Nat) (rest : Board) (c v : Nat) :
    setCell (row :: rest) 0 c v = row.set c v :: rest := by
  simp [setCell]

theorem setCell_cons_succ (row : List Nat) (rest : Board) (m c v : Nat) :
    setCell (row :: rest) (m + 1) c v = row :: setCell rest m c v := by
  simp [setCell]

theorem flatten_setCell (b : Board) (n r c v : Nat)
    (hrows : ∀ row ∈ b, row.length = n) (hr : r < b.length) (hc : c < n) :
    (setCell b r c v).flatten = b.flatten.set (r * n + c) v := by
  induction b generalizing r with
  | nil => cases hr
  | cons row rest ih =>
    have hrowlen : row.length = n := hrows row (by simp)
    cases r with
    | zero =>
      rw [setCell_cons_zero, List.flatten_cons, List.flatten_cons, Nat.zero_mul,
        Nat.zero_add, List.set_append_left c v (by rw [hrowlen]; exact hc)]
    | succ m =>
      rw [setCell_cons_succ, List.flatten_cons, List.flatten_cons,
        ih m (fun rr hrr => hrows rr (List.mem_cons_of_mem row hrr))
          (Nat.lt_of_succ_lt_succ hr)]
      have hidx : (m + 1) * n + c = row.length + (m * n + c) := by
        rw [hrowlen, Nat.succ_mul, Nat.add_assoc]
        omega
      rw [hidx, List.set_append_right _ _ (Nat.le_add_right _ _), Nat.add_sub_cancel_left]

theorem flatten_getCell (b : Board) (n r c : Nat)
    (hrows : ∀ row ∈ b, row.length = n) (hr : r < b.length) (hc : c < n) :
    getCell b r c = b.flatten.getD (r * n + c) 0 := by
  induction b generalizing r with
  | nil => cases hr
  | cons row rest ih =>
    have hrowlen : row.length = n := hrows row (by simp)
    cases r with
    | zero =>
      show row.getD c 0 = _
      rw [List.flatten_cons, Nat.zero_mul, Nat.zero_add,
        getD_append_left row rest.flatten c (by rw [hrowlen]; exact hc)]
    | succ m =>
      show getCell rest m c = _
      rw [List.flatten_cons,
        ih m (fun rr hrr => hrows rr (List.mem_cons_of_mem row hrr))
          (Nat.lt_of_succ_lt_succ hr)]
      have hidx : (m + 1) * n + c = row.length + (m * n + c) := by
        rw [hrowlen, Nat.succ_mul, Nat.add_assoc]
        omega
      rw [hidx, getD_append_add]

theorem flat_index_lt (r c n : Nat) (hr : r < n) (hc : c < n) : r * n + c < n * n := by
  have h1 : r * n + c < r * n + n := Nat.add_lt_add_left hc (r * n)
  rw [← Nat.succ_mul] at h1
  exact Nat.lt_of_lt_of_le h1 (Nat.mul_le_mul_right n (Nat.succ_le_of_lt hr))

theorem flat_index_inj (n r c r' c' : Nat) (hc : c < n) (hc' : c' < n)
    (h : r * n + c = r' * n + c') : r = r' ∧ c = c' := by
  have hn : 0 < n := Nat.lt_of_le_of_lt (Nat.zero_le c) hc
  have hdiv : (r * n + c) / n = r := by
    rw [Nat.mul_comm r n, Nat.mul_add_div hn, Nat.div_eq_of_lt hc, Nat.add_zero]
  have hdiv' : (r' * n + c') / n = r' := by
    rw [Nat.mul_comm r' n, Nat.mul_add_div hn, Nat.div_eq_of_lt hc', Nat.add_zero]
  have hmod : (r * n + c) % n = c := by
    rw [Nat.mul_comm r n, Nat.mul_add_mod, Nat.mod_eq_of_lt hc]
  have hmod' : (r' * n + c') % n = c' := by
    rw [Nat.mul_comm r' n, Nat.mul_add_mod, Nat.mod_eq_of_lt hc']
  constructor
  · rw [← hdiv, ← hdiv', h]
  · rw [← hmod, ← hmod', h]

/-! Permutation lemmas for the two-cell swap. -/

theorem getD_cons_set_perm (d : Nat) :
    ∀ (t : List Nat) (m : Nat) (a : Nat), m < t.length →
      List.Perm ((t.getD m d) :: t.set m a) (a :: t)
  | [], m, _, h => absurd h (by simp)
  | b :: s, 0, a, _ => by
      simp only [List.getD_cons_zero, List.set_cons_zero]
      exact List.Perm.swap a b s
  | b :: s, m + 1, a, h => by
      simp only [List.getD_cons_succ, List.set_cons_succ]
      exact ((List.Perm.swap b (s.getD m d) (s.set m a)).trans
        ((getD_cons_set_perm d s m a (by simpa using h)).cons b)).trans
        (List.Perm.swap a b s)

theorem swap_set_perm (d : Nat) :
    ∀ (l : List Nat) (i j : Nat), i < l.length → j < l.length → i ≠ j →
      List.Perm ((l.set i (l.getD j d)).set j (l.getD i d)) l
  | [], i, _, hi, _, _ => absurd hi (by simp)
  | _ :: _, 0, 0, _, _, hij => absurd rfl hij
  | a :: t, 0, m + 1, _, hj, _ => by
      simp only [List.getD_cons_zero, List.getD_cons_succ, List.set_cons_zero,
        List.set_cons_succ]
      exact getD_cons_set_perm d t m a (by simpa using hj)
  | a :: t, m + 1, 0, hi, _, _ => by
      simp only [List.getD_cons_zero, List.getD_cons_succ, List.set_cons_zero,
        List.set_cons_succ]
      exact getD_cons_set_perm d t m a (by simpa using hi)
  | a :: t, m + 1, k + 1, hi, hj, hij => by
      simp only [List.getD_cons_succ, List.set_cons_succ]
      exact (swap_set_perm d t m k (by simpa using hi) (by simpa using hj)
        (fun h => hij (by rw [h]))).cons a

theorem blocks_perm (n : Nat) :
    ∀ (m s : Nat),
      List.Perm (List.flatten ((List.range m).map
        fun r => List.range' (s + (m - 1 - r) * n) n)) (List.range' s (m * n))
  | 0, s => by simp
  | m + 1, s => by
      rw [List.range_succ, List.map_append, List.flatten_append]
      have hcongr : (List.range m).map (fun r => List.range' (s + (m + 1 - 1 - r) * n) n)
          = (List.range m).map (fun r => List.range' ((s + n) + (m - 1 - r) * n) n) := by
        apply List.map_congr_left
        intro r hr
        have hrm : r < m := List.mem_range.mp hr
        have hsub : m + 1 - 1 - r = (m - 1 - r) + 1 := by omega
        rw [hsub, Nat.succ_mul]
        congr 1
        omega
      rw [hcongr]
      simp only [List.map_cons, List.map_nil, List.flatten_cons, List.flatten_nil,
        List.append_nil]
      have h0 : m + 1 - 1 - m = 0 := by omega
      rw [h0, Nat.zero_mul, Nat.add_zero, Nat.succ_mul, ← List.range'_append_1 s n (m * n)]
      exact ((blocks_perm n m (s + n)).append_right (List.range' s n)).trans
        List.perm_append_comm

theorem flatten_filled_perm (n : Nat) :
    List.Perm (List.flatten (((List.range n).map fun row =>
      (List.range n).map fun col => (n - row - 1) * n + col + 1) : Board))
      (List.range' 1 (n * n)) := by
  have hrows : (((List.range n).map fun row =>
      (List.range n).map fun col => (n - row - 1) * n + col + 1) : Board)
      = (List.range n).map fun r => List.range' (1 + (n - 1 - r) * n) n := by
    apply List.map_congr_left
    intro r _
    rw [List.range'_eq_map_range]
    apply List.map_congr_left
    intro c _
    have hsub : n - r - 1 = n - 1 - r := by omega
    rw [hsub]
    omega
  rw [hrows]
  exact blocks_perm n n 1

theorem dims_solved_board (n : Nat) : dims (solved_board n) n := by
  apply dims_setCell
  constructor
  · simp
  · intro row hrow
    obtain ⟨r, _, rfl⟩ := List.mem_map.mp hrow
    simp

theorem flatten_solved_perm (n : Nat) (hn : 1 ≤ n) :
    List.Perm (solved_board n).flatten (List.range (n * n)) := by
  generalize hF : (((List.range n).map fun row =>
    (List.range n).map fun col => (n - row - 1) * n + col + 1) : Board) = F
  have hrowsF : ∀ row ∈ F, row.length = n := by
    rw [← hF]
    intro row hrow
    obtain ⟨r, _, rfl⟩ := List.mem_map.mp hrow
    simp
  have hlenF : F.length = n := by rw [← hF]; simp
  have hfp : List.Perm F.flatten (List.range' 1 (n * n)) := by
    rw [← hF]
    exact flatten_filled_perm n
  have hcell : getCell F 0 (n - 1) = (n - 0 - 1) * n + (n - 1) + 1 := by
    rw [← hF]
    exact getCell_filled n 0 (n - 1) (by omega) (by omega)
  have hsolved : solved_board n = setCell F 0 (n - 1) 0 := by rw [solved_board, hF]
  have hflen : F.flatten.length = n * n := by
    rw [flatten_length_eq F n hrowsF, hlenF]
  have h1 : (solved_board n).flatten = F.flatten.set (n - 1) 0 := by
    rw [hsolved, flatten_setCell F n 0 (n - 1) 0 hrowsF (by rw [hlenF]; omega) (by omega),
      Nat.zero_mul, Nat.zero_add]
  have hval : F.flatten.getD (n - 1) 0 = n * n := by
    have h2 := flatten_getCell F n 0 (n - 1) hrowsF (by rw [hlenF]; omega) (by omega)
    rw [Nat.zero_mul, Nat.zero_add] at h2
    rw [← h2, hcell]
    cases n with
    | zero => exact absurd hn (by omega)
    | succ k =>
      have e1 : k + 1 - 0 - 1 = k := by omega
      have e2 : k + 1 - 1 = k := by omega
      rw [e1, e2]
      ring
  have hnn : n ≤ n * n := Nat.le_mul_of_pos_left n hn
  have hS := getD_cons_set_perm 0 F.flatten (n - 1) 0 (by rw [hflen]; omega)
  rw [hval] at hS
  have h3 : List.Perm ((n * n) :: (solved_board n).flatten) (List.range (n * n + 1)) := by
    rw [h1]
    refine (hS.trans ((hfp).cons 0)).trans ?_
    rw [List.range_eq_range', List.range'_succ, Nat.zero_add]
  have h4 : List.Perm (List.range (n * n + 1)) ((n * n) :: List.range (n * n)) := by
    rw [List.range_succ]
    exact List.perm_append_comm
  exact (h3.trans h4).cons_inv

/-- The claimed invariant: an `n` by `n` grid whose entries are a permutation
of `0 .. n*n - 1` (each value exactly once, hence exactly one zero). -/
def validBoard (b : Board) (n : Nat) : Prop :=
  dims b n ∧ List.Perm b.flatten (List.range (n * n))

instance (b : Board) (n : Nat) : Decidable (validBoard b n) :=
  inferInstanceAs (Decidable (dims b n ∧ List.Perm b.flatten (List.range (n * n))))

theorem index_empty_inv (b : Board) (ex ey : Nat)
    (h : index_empty b = some (ex, ey)) :
    ey < b.length ∧ ex < (b.getD ey []).length ∧ getCell b ey ex = 0 := by
  cases hrow : position (fun r => r.contains 0) b with
  | none =>
    simp only [index_empty, bind, hrow, Option.none_bind] at h
    cases h
  | some iy0 =>
    cases hcol : position (fun x => x == 0) (b.getD iy0 []) with
    | none =>
      simp only [index_empty, bind, hrow, Option.some_bind, hcol, Option.none_bind] at h
      cases h
    | some ix0 =>
      simp only [index_empty, bind, hrow, Option.some_bind, hcol] at h
      injection h with h2
      cases h2
      obtain ⟨x, hx, hx0⟩ := position_some_mem _ _ _ hcol
      obtain ⟨hixlt, hxval⟩ := List.getElem?_eq_some_iff.mp hx
      have hx0e : x = 0 := by simpa using hx0
      have hiylt : ey < b.length := by
        obtain ⟨a, ha, _⟩ := position_some_mem _ _ _ hrow
        exact (List.getElem?_eq_some_iff.mp ha).1
      refine ⟨hiylt, hixlt, ?_⟩
      unfold getCell
      rw [getD_eq_getElem_of_lt _ _ hixlt, hxval, hx0e]

theorem try_move_inv (b b' : Board) (ix iy : Nat) (h : try_move b ix iy = some b') :
    ∃ ex ey, index_empty b = some (ex, ey) ∧
      ((absDiff ix ex + absDiff iy ey ≠ 1 ∧ b' = b) ∨
       (absDiff ix ex + absDiff iy ey = 1 ∧
        ∃ p, (b[iy]?).bind (fun r => r[ix]?) = some p ∧
          b' = setCell (setCell b ey ex p) iy ix 0)) := by
  cases hv : is_move_valid b ix iy with
  | none =>
    simp only [try_move, bind, hv, Option.none_bind] at h
    cases h
  | some v =>
    cases hie : index_empty b with
    | none => rw [is_move_valid, hie] at hv; cases hv
    | some e =>
      obtain ⟨ex, ey⟩ := e
      rw [is_move_valid, hie, Option.map_some'] at hv
      injection hv with hveq
      refine ⟨ex, ey, rfl, ?_⟩
      simp only [try_move, bind, is_move_valid, hie, Option.map_some', Option.some_bind] at h
      by_cases hd1 : absDiff ix ex + absDiff iy ey = 1
      · rw [if_pos (by simp [hd1])] at h
        cases hp : (b[iy]?).bind (fun r => r[ix]?) with
        | none =>
          rw [hp] at h
          simp only [Option.none_bind] at h
          cases h
        | some p =>
          rw [hp, Option.some_bind] at h
          injection h with h2
          exact Or.inr ⟨hd1, p, rfl, h2.symm⟩
      · rw [if_neg (by simp [hd1])] at h
        injection h with h2
        exact Or.inl ⟨hd1, h2.symm⟩

theorem validBoard_try_move (b b' : Board) (n ix iy : Nat) (hv : validBoard b n)
    (h : try_move b ix iy = some b') : validBoard b' n := by
  obtain ⟨hd, hperm⟩ := hv
  obtain ⟨ex, ey, hie, hcase⟩ := try_move_inv b b' ix iy h
  rcases hcase with ⟨_, rfl⟩ | ⟨hd1, p, hp, rfl⟩
  · exact ⟨hd, hperm⟩
  · obtain ⟨hey, hex, hz0⟩ := index_empty_inv b ex ey hie
    have heyn : ey < n := by rw [← hd.1]; exact hey
    have hexn : ex < n := by rw [← dims_row_length b n ey hd heyn]; exact hex
    obtain ⟨row, hrow, hpe⟩ : ∃ row, b[iy]? = some row ∧ row[ix]? = some p := by
      cases hr : b[iy]? with
      | none => rw [hr, Option.none_bind] at hp; cases hp
      | some row =>
        rw [hr, Option.some_bind] at hp
        exact ⟨row, rfl, hp⟩
    have hiyb : iy < b.length := (List.getElem?_eq_some_iff.mp hrow).1
    have hiyn : iy < n := by rw [← hd.1]; exact hiyb
    have hrowD : b.getD iy [] = row := by
      rw [getD_row_eq_getElem b iy hiyb, (List.getElem?_eq_some_iff.mp hrow).2]
    have hixr : ix < row.length := (List.getElem?_eq_some_iff.mp hpe).1
    have hixn : ix < n := by
      rw [← dims_row_length b n iy hd hiyn, hrowD]
      exact hixr
    have hpval : getCell b iy ix = p := by
      unfold getCell
      rw [hrowD, getD_eq_getElem_of_lt row ix hixr, (List.getElem?_eq_some_iff.mp hpe).2]
    have hne := absDiff_dist_one_ne ix ex iy ey hd1
    have hij : ey * n + ex ≠ iy * n + ix := by
      intro hC
      obtain ⟨h1, h2⟩ := flat_index_inj n ey ex iy ix hexn hixn hC
      exact hne ⟨h1.symm, h2.symm⟩
    have hflen : b.flatten.length = n * n := by
      rw [flatten_length_eq b n hd.2, hd.1]
    have hi : ey * n + ex < b.flatten.length := by
      rw [hflen]
      exact flat_index_lt ey ex n heyn hexn
    have hj : iy * n + ix < b.flatten.length := by
      rw [hflen]
      exact flat_index_lt iy ix n hiyn hixn
    have hgi : b.flatten.getD (ey * n + ex) 0 = 0 := by
      rw [← flatten_getCell b n ey ex hd.2 hey hexn]
      exact hz0
    have hgj : b.flatten.getD (iy * n + ix) 0 = p := by
      rw [← flatten_getCell b n iy ix hd.2 hiyb hixn]
      exact hpval
    have hdA : dims (setCell b ey ex p) n := dims_setCell b n ey ex p hd
    have hflat1 : (setCell b ey ex p).flatten = b.flatten.set (ey * n + ex) p :=
      flatten_setCell b n ey ex p hd.2 hey hexn
    have hflat2 : (setCell (setCell b ey ex p) iy ix 0).flatten
        = ((setCell b ey ex p).flatten).set (iy * n + ix) 0 :=
      flatten_setCell (setCell b ey ex p) n iy ix 0 hdA.2
        (by rw [length_setCell]; exact hiyb) hixn
    refine ⟨dims_setCell _ n iy ix 0 hdA, ?_⟩
    rw [hflat2, hflat1]
    have hswap := swap_set_perm 0 b.flatten (ey * n + ex) (iy * n + ix) hi hj hij
    rw [hgi, hgj] at hswap
    exact hswap.trans hperm

/-- The model's board operations: `reset`, a user click routed to `try_move`,
and one sampled candidate cell of the rejection-sampling loop in
`do_one_random_move` (a draw failing `is_move_valid` leaves the board
unchanged and the loop retries with another draw). -/
inductive Op where
  | reset : Op
  | move : Nat → Nat → Op
  | scramble : Nat → Nat → Op
deriving DecidableEq

def applyOp (n : Nat) (b : Board) : Op → Option Board
  | Op.reset => some (reset n b)
  | Op.move ix iy => try_move b ix iy
  | Op.scramble ix iy =>
      (is_move_valid b ix iy).bind (fun v => if v then try_move b ix iy else some b)

def applySeq (n : Nat) (ops : List Op) (b : Board) : Option Board :=
  ops.foldlM (applyOp n) b

theorem validBoard_applyOp (n : Nat) (b b' : Board) (op : Op) (hn : 1 ≤ n)
    (hv : validBoard b n) (h : applyOp n b op = some b') : validBoard b' n := by
  cases op with
  | reset =>
    injection h with h2
    rw [← h2]
    exact ⟨dims_solved_board n, flatten_solved_perm n hn⟩
  | move ix iy => exact validBoard_try_move b b' n ix iy hv h
  | scramble ix iy =>
    cases hmv : is_move_valid b ix iy with
    | none =>
      rw [applyOp, hmv, Option.none_bind] at h
      cases h
    | some v =>
      rw [applyOp, hmv, Option.some_bind] at h
      cases v with
      | true =>
        rw [if_pos rfl] at h
        exact validBoard_try_move b b' n ix iy hv h
      | false =>
        rw [if_neg (by simp)] at h
        injection h with h2
        rw [← h2]
        exact hv

theorem validBoard_applySeq (n : Nat) (ops : List Op) (b0 b : Board) (hn : 1 ≤ n)
    (hv : validBoard b0 n) (h : applySeq n ops b0 = some b) : validBoard b n := by
  induction ops generalizing b0 with
  | nil =>
    rw [applySeq, List.foldlM_nil] at h
    injection h with h2
    rw [← h2]
    exact hv
  | cons op rest ih =>
    rw [applySeq, List.foldlM_cons] at h
    cases hstep : applyOp n b0 op with
    | none => rw [hstep] at h; cases h
    | some b1 =>
      rw [hstep] at h
      exact ih b1 (validBoard_applyOp n b0 b1 op hn hv hstep) h

/-- C4: for `n ≥ 2` the grid built by `solved_board` holds each value in
`0 .. n*n - 1` exactly once, and the invariant is preserved by every
non-panicking sequence of reset, `try_move` and scramble-step calls. -/
theorem construct_invariant (n : Nat) (ops : List Op) (b : Board) (hn : 2 ≤ n)
    (h : applySeq n ops (solved_board n) = some b) :
    validBoard (solved_board n) n ∧ validBoard b n := by
  have h1 : 1 ≤ n := Nat.le_of_succ_le hn
  have hbase : validBoard (solved_board n) n :=
    ⟨dims_solved_board n, flatten_solved_perm n h1⟩
  exact ⟨hbase, validBoard_applySeq n ops (solved_board n) b h1 hbase h⟩

/-- C4 witness: one user move, one scramble draw (accepted) and a reset on
the 2×2 board. -/
theorem construct_invariant_witness :
    validBoard (solved_board 2) 2 ∧ validBoard (solved_board 2) 2 :=
  construct_invariant 2 [Op.move 0 0, Op.scramble 0 0, Op.reset] (solved_board 2)
    (by decide) (by decide)

/-! The tile-image compositor (C5, C6): `Model::update_image`. -/

/-- A square raster image: a side length and a pixel function (pixel values
abstracted as naturals; 0 is the blank/transparent value of a freshly
allocated RGBA8 buffer). -/
structure Image where
  side : Nat
  pix : Nat → Nat → Nat

/-- Embeds `image::DynamicImage::new_rgba8`: an all-blank square image. -/
def new_rgba8 (size : Nat) : Image := ⟨size, fun _ _ => 0⟩

/-- Embeds `crop_imm(x0, y0, w, w)` for the in-range crops used here: pixel
(dx, dy) of the crop is pixel (x0 + dx, y0 + dy) of the source. -/
def crop_imm (img : Image) (x0 y0 w : Nat) : Image :=
  ⟨w, fun dx dy => img.pix (x0 + dx) (y0 + dy)⟩

/-- Embeds `GenericImage::copy_from(&src, x, y)` followed by `.expect(..)`:
panics (`none`) unless the source fits inside the destination; otherwise
overwrites the `src.side` square block whose top-left corner is (x, y). -/
def copy_from (dst src : Image) (x y : Nat) : Option Image :=
  if x + src.side ≤ dst.side ∧ y + src.side ≤ dst.side then
    some ⟨dst.side, fun px py =>
      if x ≤ px ∧ px < x + src.side ∧ y ≤ py ∧ py < y + src.side then
        src.pix (px - x) (py - y)
      else dst.pix px py⟩
  else none

/-- Embeds `Model::update_image`: allocate a blank image of the solved
image's size; for every cell holding a nonzero piece, copy the piece's
`cell_size` square home block (`x0 = ((piece-1) % grid_size) * cell_size`,
`y0 = ((piece-1) / grid_size) * cell_size`) from the solved image to the
destination block at `(col * cell_size, size - (row+1) * cell_size)`; cells
holding 0 are skipped. -/
def update_image (grid_size : Nat) (board : Board) (image_solved : Image) :
    Option Image :=
  (List.range grid_size).foldlM (fun img row =>
    (List.range grid_size).foldlM (fun img col => do
      let piece ← (board[row]?).bind (fun r => r[col]?)
      if piece ≠ 0 then
        copy_from img
          (crop_imm image_solved
            (((piece - 1) % grid_size) * (image_solved.side / grid_size))
            (((piece - 1) / grid_size) * (image_solved.side / grid_size))
            (image_solved.side / grid_size))
          (col * (image_solved.side / grid_size))
          (image_solved.side - (row + 1) * (image_solved.side / grid_size))
      else
        pure img) img)
    (new_rgba8 image_solved.side)

/-- One cell of the compositor loop, abstracted over the cell coordinates. -/
def drawCell (gs cs size : Nat) (solved : Image) (b : Board) (img : Image)
    (rc : Nat × Nat) : Option Image := do
  let piece ← (b[rc.1]?).bind (fun r => r[rc.2]?)
  if piece ≠ 0 then
    copy_from img
      (crop_imm solved (((piece - 1) % gs) * cs) (((piece - 1) / gs) * cs) cs)
      (rc.2 * cs) (size - (rc.1 + 1) * cs)
  else
    pure img

def drawCells (gs cs size : Nat) (solved : Image) (b : Board)
    (cells : List (Nat × Nat)) (img : Image) : Option Image :=
  cells.foldlM (drawCell gs cs size solved b) img

theorem foldlM_flatMap {α β γ : Type} (f : α → List β) (g : γ → β → Option γ) :
    ∀ (l : List α) (i : γ),
      (l.flatMap f).foldlM g i = l.foldlM (fun acc a => (f a).foldlM g acc) i
  | [], _ => rfl
  | a :: as, i => by
      rw [List.flatMap_cons, List.foldlM_append, List.foldlM_cons]
      cases hx : (f a).foldlM g i with
      | none => rfl
      | some i2 =>
        show (as.flatMap f).foldlM g i2 = as.foldlM (fun acc a => (f a).foldlM g acc) i2
        exact foldlM_flatMap f g as i2

theorem foldlM_congr_fn {α β : Type} (g₁ g₂ : α → β → Option α)
    (h : ∀ a b, g₁ a b = g₂ a b) :
    ∀ (l : List β) (i : α), l.foldlM g₁ i = l.foldlM g₂ i
  | [], _ => rfl
  | b :: bs, i => by
      rw [List.foldlM_cons, List.foldlM_cons, h i b]
      cases hg : g₂ i b with
      | none => rfl
      | some a2 =>
        show bs.foldlM g₁ a2 = bs.foldlM g₂ a2
        exact foldlM_congr_fn g₁ g₂ h bs a2

theorem update_image_eq_drawCells (gs : Nat) (b : Board) (solved : Image) :
    update_image gs b solved
      = drawCells gs (solved.side / gs) solved.side solved b
          ((List.range gs).flatMap (fun r => (List.range gs).map (fun c => (r, c))))
          (new_rgba8 solved.side) := by
  rw [drawCells, foldlM_flatMap, update_image]
  apply foldlM_congr_fn
  intro img r
  rw [List.foldlM_map]
  rfl

/-- Pixel (px, py) lies in the destination block of cell (row, col). -/
def inBlock (cs size row col px py : Nat) : Prop :=
  col * cs ≤ px ∧ px < col * cs + cs ∧
    size - (row + 1) * cs ≤ py ∧ py < size - (row + 1) * cs + cs

instance (cs size row col px py : Nat) : Decidable (inBlock cs size row col px py) :=
  inferInstanceAs (Decidable (col * cs ≤ px ∧ px < col * cs + cs ∧
    size - (row + 1) * cs ≤ py ∧ py < size - (row + 1) * cs + cs))

theorem copy_from_eq_some (dst src : Image) (x y : Nat)
    (h1 : x + src.side ≤ dst.side) (h2 : y + src.side ≤ dst.side) :
    copy_from dst src x y = some ⟨dst.side, fun px py =>
      if x ≤ px ∧ px < x + src.side ∧ y ≤ py ∧ py < y + src.side then
        src.pix (px - x) (py - y)
      else dst.pix px py⟩ := by
  unfold copy_from
  rw [if_pos ⟨h1, h2⟩]

/-- The image produced by a successful `copy_from`. -/
def paint (dst src : Image) (x y : Nat) : Image :=
  ⟨dst.side, fun px py =>
    if x ≤ px ∧ px < x + src.side ∧ y ≤ py ∧ py < y + src.side then
      src.pix (px - x) (py - y)
    else dst.pix px py⟩

theorem copy_from_eq_paint (dst src : Image) (x y : Nat)
    (h1 : x + src.side ≤ dst.side) (h2 : y + src.side ≤ dst.side) :
    copy_from dst src x y = some (paint dst src x y) := by
  unfold copy_from paint
  rw [if_pos ⟨h1, h2⟩]

theorem paint_side (dst src : Image) (x y : Nat) :
    (paint dst src x y).side = dst.side := rfl

theorem paint_pix (dst src : Image) (x y px py : Nat) :
    (paint dst src x y).pix px py =
      if x ≤ px ∧ px < x + src.side ∧ y ≤ py ∧ py < y + src.side then
        src.pix (px - x) (py - y)
      else dst.pix px py := rfl

theorem crop_imm_side (img : Image) (x0 y0 w : Nat) :
    (crop_imm img x0 y0 w).side = w := rfl

theorem crop_imm_pix (img : Image) (x0 y0 w dx dy : Nat) :
    (crop_imm img x0 y0 w).pix dx dy = img.pix (x0 + dx) (y0 + dy) := rfl

theorem new_rgba8_side (s : Nat) : (new_rgba8 s).side = s := rfl

theorem new_rgba8_pix (s px py : Nat) : (new_rgba8 s).pix px py = 0 := rfl

theorem drawCell_eq (gs cs size : Nat) (solved : Image) (b : Board) (img : Image)
    (rc : Nat × Nat) (hd : dims b gs) (hr : rc.1 < gs) (hc : rc.2 < gs)
    (himg : img.side = size) (hfit : gs * cs ≤ size) :
    ∃ img', drawCell gs cs size solved b img rc = some img' ∧ img'.side = size ∧
      ∀ px py,
        img'.pix px py =
          if getCell b rc.1 rc.2 ≠ 0 ∧ inBlock cs size rc.1 rc.2 px py then
            solved.pix (((getCell b rc.1 rc.2 - 1) % gs) * cs + (px - rc.2 * cs))
              (((getCell b rc.1 rc.2 - 1) / gs) * cs + (py - (size - (rc.1 + 1) * cs)))
          else img.pix px py := by
  have hpiece := piece_read_eq b gs rc.2 rc.1 hd hc hr
  by_cases hpz : getCell b rc.1 rc.2 = 0
  · refine ⟨img, ?_, himg, ?_⟩
    · simp only [drawCell, bind, hpiece, Option.some_bind]
      rw [if_neg (by simp [hpz])]
      rfl
    · intro px py
      rw [if_neg (fun hAnd => hAnd.1 hpz)]
  · have hx : rc.2 * cs + cs ≤ size := by
      have h1 : (rc.2 + 1) * cs ≤ gs * cs := Nat.mul_le_mul_right cs (Nat.succ_le_of_lt hc)
      rw [Nat.succ_mul] at h1
      omega
    have hy : (size - (rc.1 + 1) * cs) + cs ≤ size := by
      have h1 : (rc.1 + 1) * cs ≤ gs * cs := Nat.mul_le_mul_right cs (Nat.succ_le_of_lt hr)
      have h2 : (rc.1 + 1) * cs = rc.1 * cs + cs := Nat.succ_mul rc.1 cs
      omega
    have hcopy := copy_from_eq_paint img
      (crop_imm solved (((getCell b rc.1 rc.2 - 1) % gs) * cs)
        (((getCell b rc.1 rc.2 - 1) / gs) * cs) cs)
      (rc.2 * cs) (size - (rc.1 + 1) * cs)
      (by rw [crop_imm_side, himg]; exact hx)
      (by rw [crop_imm_side, himg]; exact hy)
    refine ⟨paint img
      (crop_imm solved (((getCell b rc.1 rc.2 - 1) % gs) * cs)
        (((getCell b rc.1 rc.2 - 1) / gs) * cs) cs)
      (rc.2 * cs) (size - (rc.1 + 1) * cs), ?_, ?_, ?_⟩
    · simp only [drawCell, bind, hpiece, Option.some_bind]
      rw [if_pos hpz]
      exact hcopy
    · rw [paint_side]
      exact himg
    · intro px py
      rw [paint_pix, crop_imm_side]
      by_cases hib : inBlock cs size rc.1 rc.2 px py
      · obtain ⟨h1, h2, h3, h4⟩ := hib
        rw [if_pos ⟨h1, h2, h3, h4⟩, if_pos ⟨hpz, h1, h2, h3, h4⟩, crop_imm_pix]
      · rw [if_neg (show ¬(rc.2 * cs ≤ px ∧ px < rc.2 * cs + cs ∧
            size - (rc.1 + 1) * cs ≤ py ∧ py < size - (rc.1 + 1) * cs + cs) from
            fun hcond => hib hcond),
          if_neg (fun hAnd => hib hAnd.2)]

theorem drawCells_some (gs cs size : Nat) (solved : Image) (b : Board)
    (hd : dims b gs) (hfit : gs * cs ≤ size) :
    ∀ (cells : List (Nat × Nat)) (img : Image), img.side = size →
      (∀ rc ∈ cells, rc.1 < gs ∧ rc.2 < gs) →
      ∃ img', drawCells gs cs size solved b cells img = some img' ∧ img'.side = size
  | [], img, himg, _ => ⟨img, rfl, himg⟩
  | rc :: rest, img, himg, hbnd => by
      obtain ⟨img1, hstep, hside1, _⟩ := drawCell_eq gs cs size solved b img rc hd
        (hbnd rc (List.mem_cons_self rc rest)).1 (hbnd rc (List.mem_cons_self rc rest)).2
        himg hfit
      obtain ⟨img', hrest, hside'⟩ := drawCells_some gs cs size solved b hd hfit rest img1
        hside1 (fun rc2 h2 => hbnd rc2 (List.mem_cons_of_mem rc h2))
      refine ⟨img', ?_, hside'⟩
      rw [drawCells, List.foldlM_cons]
      show drawCell gs cs size solved b img rc >>= _ = _
      rw [hstep]
      show drawCells gs cs size solved b rest img1 = some img'
      exact hrest

theorem drawCells_frame (gs cs size : Nat) (solved : Image) (b : Board) (px py : Nat)
    (hd : dims b gs) (hfit : gs * cs ≤ size) :
    ∀ (cells : List (Nat × Nat)) (img img' : Image), img.side = size →
      (∀ rc ∈ cells, rc.1 < gs ∧ rc.2 < gs) →
      (∀ rc ∈ cells, getCell b rc.1 rc.2 ≠ 0 → ¬ inBlock cs size rc.1 rc.2 px py) →
      drawCells gs cs size solved b cells img = some img' →
      img'.pix px py = img.pix px py
  | [], img, img', _, _, _, h => by
      rw [drawCells, List.foldlM_nil] at h
      injection h with h2
      rw [← h2]
  | rc :: rest, img, img', himg, hbnd, hnw, h => by
      obtain ⟨img1, hstep, hside1, hpix1⟩ := drawCell_eq gs cs size solved b img rc hd
        (hbnd rc (List.mem_cons_self rc rest)).1 (hbnd rc (List.mem_cons_self rc rest)).2
        himg hfit
      rw [drawCells, List.foldlM_cons] at h
      rw [hstep] at h
      have hrest : drawCells gs cs size solved b rest img1 = some img' := h
      have hmid := drawCells_frame gs cs size solved b px py hd hfit rest img1 img'
        hside1 (fun rc2 h2 => hbnd rc2 (List.mem_cons_of_mem rc h2))
        (fun rc2 h2 => hnw rc2 (List.mem_cons_of_mem rc h2)) hrest
      rw [hmid, hpix1 px py, if_neg (fun hAnd =>
        hnw rc (List.mem_cons_self rc rest) hAnd.1 hAnd.2)]

theorem drawCells_write (gs cs size : Nat) (solved : Image) (b : Board)
    (r0 c0 px py : Nat) (hd : dims b gs) (hfit : gs * cs ≤ size)
    (hpz : getCell b r0 c0 ≠ 0)
    (hib : inBlock cs size r0 c0 px py) :
    ∀ (cells : List (Nat × Nat)) (img img' : Image), img.side = size →
      (∀ rc ∈ cells, rc.1 < gs ∧ rc.2 < gs) →
      (r0, c0) ∈ cells →
      (∀ rc ∈ cells, rc ≠ (r0, c0) → ¬ inBlock cs size rc.1 rc.2 px py) →
      drawCells gs cs size solved b cells img = some img' →
      img'.pix px py
        = solved.pix (((getCell b r0 c0 - 1) % gs) * cs + (px - c0 * cs))
            (((getCell b r0 c0 - 1) / gs) * cs + (py - (size - (r0 + 1) * cs)))
  | [], _, _, _, _, hmem, _, _ => absurd hmem (List.not_mem_nil _)
  | rc :: rest, img, img', himg, hbnd, hmem, hothers, h => by
      obtain ⟨img1, hstep, hside1, hpix1⟩ := drawCell_eq gs cs size solved b img rc hd
        (hbnd rc (List.mem_cons_self rc rest)).1 (hbnd rc (List.mem_cons_self rc rest)).2
        himg hfit
      rw [drawCells, List.foldlM_cons] at h
      rw [hstep] at h
      have hrest : drawCells gs cs size solved b rest img1 = some img' := h
      by_cases hrc : rc = (r0, c0)
      · by_cases hmem2 : (r0, c0) ∈ rest
        · exact drawCells_write gs cs size solved b r0 c0 px py hd hfit hpz hib rest
            img1 img' hside1 (fun rc2 h2 => hbnd rc2 (List.mem_cons_of_mem rc h2)) hmem2
            (fun rc2 h2 hne => hothers rc2 (List.mem_cons_of_mem rc h2) hne) hrest
        · have hframe := drawCells_frame gs cs size solved b px py hd hfit rest img1 img'
            hside1 (fun rc2 h2 => hbnd rc2 (List.mem_cons_of_mem rc h2))
            (fun rc2 h2 _ => hothers rc2 (List.mem_cons_of_mem rc h2)
              (fun he => hmem2 (he ▸ h2)) ) hrest
          rw [hframe, hpix1 px py]
          subst hrc
          rw [if_pos ⟨hpz, hib⟩]
      · have hmem2 : (r0, c0) ∈ rest := by
          rcases List.mem_cons.mp hmem with he | ht
          · exact absurd he.symm hrc
          · exact ht
        exact drawCells_write gs cs size solved b r0 c0 px py hd hfit hpz hib rest
          img1 img' hside1 (fun rc2 h2 => hbnd rc2 (List.mem_cons_of_mem rc h2)) hmem2
          (fun rc2 h2 hne => hothers rc2 (List.mem_cons_of_mem rc h2) hne) hrest

theorem mem_cellList (gs r c : Nat) :
    (r, c) ∈ (List.range gs).flatMap (fun a => (List.range gs).map (fun b => (a, b)))
      ↔ r < gs ∧ c < gs := by
  simp only [List.mem_flatMap, List.mem_map, List.mem_range]
  constructor
  · rintro ⟨a, ha, b, hb, heq⟩
    injection heq with h1 h2
    subst h1
    subst h2
    exact ⟨ha, hb⟩
  · rintro ⟨hr, hc⟩
    exact ⟨r, hr, c, hc, rfl⟩

theorem cellList_bounds (gs : Nat) :
    ∀ rc ∈ (List.range gs).flatMap (fun a => (List.range gs).map (fun b => (a, b))),
      rc.1 < gs ∧ rc.2 < gs := by
  intro rc hmem
  obtain ⟨a, b⟩ := rc
  exact (mem_cellList gs a b).mp hmem

theorem col_unique (cs c c' p : Nat) (h1 : c * cs ≤ p) (h2 : p < c * cs + cs)
    (h3 : c' * cs ≤ p) (h4 : p < c' * cs + cs) : c = c' := by
  rcases Nat.lt_trichotomy c c' with h | h | h
  · have h5 : (c + 1) * cs ≤ c' * cs := Nat.mul_le_mul_right cs (Nat.succ_le_of_lt h)
    rw [Nat.succ_mul] at h5
    omega
  · exact h
  · have h5 : (c' + 1) * cs ≤ c * cs := Nat.mul_le_mul_right cs (Nat.succ_le_of_lt h)
    rw [Nat.succ_mul] at h5
    omega

theorem row_unique (cs size r r' p : Nat) (hr1 : (r + 1) * cs ≤ size)
    (hr2 : (r' + 1) * cs ≤ size)
    (h1 : size - (r + 1) * cs ≤ p) (h2 : p < size - (r + 1) * cs + cs)
    (h3 : size - (r' + 1) * cs ≤ p) (h4 : p < size - (r' + 1) * cs + cs) : r = r' := by
  rcases Nat.lt_trichotomy r r' with h | h | h
  · have h5 : (r + 1 + 1) * cs ≤ (r' + 1) * cs :=
      Nat.mul_le_mul_right cs (Nat.succ_le_of_lt (Nat.succ_lt_succ h))
    rw [Nat.succ_mul (r + 1) cs] at h5
    omega
  · exact h
  · have h5 : (r' + 1 + 1) * cs ≤ (r + 1) * cs :=
      Nat.mul_le_mul_right cs (Nat.succ_le_of_lt (Nat.succ_lt_succ h))
    rw [Nat.succ_mul (r' + 1) cs] at h5
    omega

theorem inBlock_unique (gs cs size r c r' c' px py : Nat) (hfit : gs * cs ≤ size)
    (hr : r < gs) (hr' : r' < gs)
    (h1 : inBlock cs size r c px py) (h2 : inBlock cs size r' c' px py) :
    r = r' ∧ c = c' := by
  obtain ⟨ha1, ha2, ha3, ha4⟩ := h1
  obtain ⟨hb1, hb2, hb3, hb4⟩ := h2
  have hs1 : (r + 1) * cs ≤ size :=
    Nat.le_trans (Nat.mul_le_mul_right cs (Nat.succ_le_of_lt hr)) hfit
  have hs2 : (r' + 1) * cs ≤ size :=
    Nat.le_trans (Nat.mul_le_mul_right cs (Nat.succ_le_of_lt hr')) hfit
  exact ⟨row_unique cs size r r' py hs1 hs2 ha3 ha4 hb3 hb4,
    col_unique cs c c' px ha1 ha2 hb1 hb2⟩

/-- C5: for every cell (col, row) holding a nonzero piece, the rendered image
holds, throughout that cell's destination block (top-left pixel
`(col * cell_size, size - (row+1) * cell_size)`, the row flip), the pixels of
the piece's home block in the solved image (`homeCol = (piece-1) % gridSide`,
`homeRow = (piece-1) / gridSide`); the cell holding 0 receives no copy: its
destination block stays blank (0). -/
theorem update_image_spec (gs : Nat) (b : Board) (solved : Image)
    (row col dx dy : Nat) (hd : dims b gs) (hrow : row < gs) (hcol : col < gs)
    (hdx : dx < solved.side / gs) (hdy : dy < solved.side / gs) :
    ∃ img, update_image gs b solved = some img ∧ img.side = solved.side ∧
      (getCell b row col ≠ 0 →
        img.pix (col * (solved.side / gs) + dx)
            (solved.side - (row + 1) * (solved.side / gs) + dy)
          = solved.pix
              (((getCell b row col - 1) % gs) * (solved.side / gs) + dx)
              (((getCell b row col - 1) / gs) * (solved.side / gs) + dy))
      ∧ (getCell b row col = 0 →
        img.pix (col * (solved.side / gs) + dx)
            (solved.side - (row + 1) * (solved.side / gs) + dy) = 0) := by
  have hfit : gs * (solved.side / gs) ≤ solved.side := Nat.mul_div_le solved.side gs
  obtain ⟨img, hsome, hside⟩ := drawCells_some gs (solved.side / gs) solved.side solved b
    hd hfit
    ((List.range gs).flatMap (fun a => (List.range gs).map (fun bb => (a, bb))))
    (new_rgba8 solved.side) (new_rgba8_side solved.side) (cellList_bounds gs)
  have hib : inBlock (solved.side / gs) solved.side row col
      (col * (solved.side / gs) + dx)
      (solved.side - (row + 1) * (solved.side / gs) + dy) :=
    ⟨Nat.le_add_right _ _, Nat.add_lt_add_left hdx _,
     Nat.le_add_right _ _, Nat.add_lt_add_left hdy _⟩
  refine ⟨img, ?_, hside, ?_, ?_⟩
  · rw [update_image_eq_drawCells]
    exact hsome
  · intro hnz
    have hw := drawCells_write gs (solved.side / gs) solved.side solved b row col
      (col * (solved.side / gs) + dx)
      (solved.side - (row + 1) * (solved.side / gs) + dy)
      hd hfit hnz hib
      ((List.range gs).flatMap (fun a => (List.range gs).map (fun bb => (a, bb))))
      (new_rgba8 solved.side) img (new_rgba8_side solved.side) (cellList_bounds gs)
      ((mem_cellList gs row col).mpr ⟨hrow, hcol⟩)
      (fun rc hmem hne hib2 => by
        obtain ⟨r2, c2⟩ := rc
        obtain ⟨hr2, hc2⟩ := (mem_cellList gs r2 c2).mp hmem
        obtain ⟨he1, he2⟩ := inBlock_unique gs (solved.side / gs) solved.side
          r2 c2 row col _ _ hfit hr2 hrow hib2 hib
        exact hne (by rw [he1, he2]))
      hsome
    rw [hw, Nat.add_sub_cancel_left, Nat.add_sub_cancel_left]
  · intro hz
    have hf := drawCells_frame gs (solved.side / gs) solved.side solved b
      (col * (solved.side / gs) + dx)
      (solved.side - (row + 1) * (solved.side / gs) + dy)
      hd hfit
      ((List.range gs).flatMap (fun a => (List.range gs).map (fun bb => (a, bb))))
      (new_rgba8 solved.side) img (new_rgba8_side solved.side) (cellList_bounds gs)
      (fun rc hmem hnz hib2 => by
        obtain ⟨r2, c2⟩ := rc
        obtain ⟨hr2, hc2⟩ := (mem_cellList gs r2 c2).mp hmem
        obtain ⟨he1, he2⟩ := inBlock_unique gs (solved.side / gs) solved.side
          r2 c2 row col _ _ hfit hr2 hrow hib2 hib
        apply hnz
        rw [he1, he2]
        exact hz)
      hsome
    rw [hf, new_rgba8_pix]

/-- C5 witness: the 2×2 solved board rendered onto a concrete 2×2 image;
the piece at column 0, row 1 (piece 1, home block top-left) instantiates the
description. -/
theorem update_image_spec_witness :
    ∃ img, update_image 2 (solved_board 2) ⟨2, fun p q => p + 2 * q + 1⟩ = some img ∧
      img.side = 2 ∧
      (getCell (solved_board 2) 1 0 ≠ 0 →
        img.pix 0 0 = (⟨2, fun p q => p + 2 * q + 1⟩ : Image).pix 0 0) ∧
      (getCell (solved_board 2) 1 0 = 0 → img.pix 0 0 = 0) :=
  update_image_spec 2 (solved_board 2) ⟨2, fun p q => p + 2 * q + 1⟩ 1 0 0 0
    (by decide) (by decide) (by decide) (by decide) (by decide)

/-- C6: the claim as stated is false: on the 2×2 solved board the rendered
image is blank at pixel (1, 1) — the empty cell's block — while the solved
image holds 4 there. -/
theorem render_solved_claim_false :
    ¬ (∀ img, update_image 2 (solved_board 2) ⟨2, fun p q => p + 2 * q + 1⟩ = some img →
        ∀ px py, px < 2 → py < 2 →
          img.pix px py = (⟨2, fun p q => p + 2 * q + 1⟩ : Image).pix px py) := by
  intro hcl
  have h0 : (update_image 2 (solved_board 2) ⟨2, fun p q => p + 2 * q + 1⟩).map
      (fun i => i.pix 1 1) = some 0 := by decide
  cases hu : update_image 2 (solved_board 2) ⟨2, fun p q => p + 2 * q + 1⟩ with
  | none => rw [hu] at h0; cases h0
  | some img =>
    rw [hu, Option.map_some'] at h0
    injection h0 with h0'
    have h1 := hcl img hu 1 1 (by decide) (by decide)
    exact absurd (h0'.symm.trans h1) (by decide)

theorem mul_add_div_eq (n r c : Nat) (hc : c < n) : (r * n + c) / n = r := by
  have hn : 0 < n := Nat.lt_of_le_of_lt (Nat.zero_le c) hc
  rw [Nat.mul_comm r n, Nat.mul_add_div hn, Nat.div_eq_of_lt hc, Nat.add_zero]

theorem mul_add_mod_eq (n r c : Nat) (hc : c < n) : (r * n + c) % n = c := by
  rw [Nat.mul_comm r n, Nat.mul_add_mod, Nat.mod_eq_of_lt hc]

/-- C6 (amended): rendering the solved board onto a solved image whose side
is the exact multiple `n * c` of the grid side reproduces the image pixel for
pixel, except on the empty cell's destination block — the block of cell
(row 0, column n-1), i.e. the bottom-right block after the row flip — which
stays blank (0). -/
theorem update_image_solved_board (n c : Nat) (solved : Image) (px py : Nat)
    (hn : 1 ≤ n) (hS : solved.side = n * c)
    (hpx : px < solved.side) (hpy : py < solved.side) :
    ∃ img, update_image n (solved_board n) solved = some img ∧
      img.side = solved.side ∧
      img.pix px py =
        if inBlock c solved.side 0 (n - 1) px py then 0 else solved.pix px py := by
  have hn0 : 0 < n := hn
  have hcs : solved.side / n = c := by
    rw [hS]
    exact Nat.mul_div_cancel_left c hn0
  have hfit : n * (solved.side / n) ≤ solved.side := Nat.mul_div_le solved.side n
  have hd := dims_solved_board n
  obtain ⟨img, hsome, hside⟩ := drawCells_some n (solved.side / n) solved.side solved
    (solved_board n) hd hfit
    ((List.range n).flatMap (fun a => (List.range n).map (fun bb => (a, bb))))
    (new_rgba8 solved.side) (new_rgba8_side solved.side) (cellList_bounds n)
  refine ⟨img, by rw [update_image_eq_drawCells]; exact hsome, hside, ?_⟩
  rw [hcs] at hsome hfit
  have hc0 : 0 < c := by
    rcases Nat.eq_zero_or_pos c with h0 | h0
    · rw [h0, Nat.mul_zero] at hS
      rw [hS] at hpx
      cases hpx
    · exact h0
  have hcol : px / c < n := by
    rw [Nat.div_lt_iff_lt_mul hc0, ← hS]
    exact hpx
  have hrowT : py / c < n := by
    rw [Nat.div_lt_iff_lt_mul hc0, ← hS]
    exact hpy
  have hx1 : (px / c) * c ≤ px := Nat.div_mul_le_self px c
  have hx2 : px < (px / c) * c + c := by
    have hdm := Nat.div_add_mod px c
    have hm : px % c < c := Nat.mod_lt px hc0
    have hcm : (px / c) * c = c * (px / c) := Nat.mul_comm _ _
    omega
  have hy1 : (py / c) * c ≤ py := Nat.div_mul_le_self py c
  have hy2 : py < (py / c) * c + c := by
    have hdm := Nat.div_add_mod py c
    have hm : py % c < c := Nat.mod_lt py hc0
    have hcm : (py / c) * c = c * (py / c) := Nat.mul_comm _ _
    omega
  have hrown : n - 1 - py / c < n :=
    Nat.lt_of_le_of_lt (Nat.sub_le (n - 1) (py / c)) (Nat.sub_lt hn0 Nat.one_pos)
  have hr1 : (n - 1 - py / c) + 1 = n - py / c := by omega
  have hsubm : (n - py / c) * c = n * c - (py / c) * c := Nat.sub_mul n (py / c) c
  have hmulle : (py / c) * c ≤ n * c := Nat.mul_le_mul_right c (Nat.le_of_lt hrowT)
  have hyblock1 : solved.side - ((n - 1 - py / c) + 1) * c = (py / c) * c := by
    rw [hr1, hsubm, hS]
    omega
  have hib : inBlock c solved.side (n - 1 - py / c) (px / c) px py := by
    refine ⟨hx1, hx2, ?_, ?_⟩
    · rw [hyblock1]
      exact hy1
    · rw [hyblock1]
      exact hy2
  have hpiece := getCell_solved n (n - 1 - py / c) (px / c) hrown hcol
  by_cases hz : (n - 1 - py / c) = 0 ∧ (px / c) = n - 1
  · have hib0 : inBlock c solved.side 0 (n - 1) px py := by
      have hcopy := hib
      rw [hz.1, hz.2] at hcopy
      exact hcopy
    rw [if_pos hib0]
    have hf := drawCells_frame n c solved.side solved (solved_board n) px py hd hfit
      ((List.range n).flatMap (fun a => (List.range n).map (fun bb => (a, bb))))
      (new_rgba8 solved.side) img (new_rgba8_side solved.side) (cellList_bounds n)
      (fun rc hmem hnz hib2 => by
        obtain ⟨r2, c2⟩ := rc
        obtain ⟨hr2, hc2⟩ := (mem_cellList n r2 c2).mp hmem
        obtain ⟨he1, he2⟩ := inBlock_unique n c solved.side r2 c2
          (n - 1 - py / c) (px / c) px py hfit hr2 hrown hib2 hib
        apply hnz
        rw [he1, he2, hpiece, if_pos hz])
      hsome
    rw [hf, new_rgba8_pix]
  · have hne0 : ¬ inBlock c solved.side 0 (n - 1) px py := by
      intro hib0
      obtain ⟨he1, he2⟩ := inBlock_unique n c solved.side 0 (n - 1)
        (n - 1 - py / c) (px / c) px py hfit hn0 hrown hib0 hib
      exact hz ⟨he1.symm, he2.symm⟩
    rw [if_neg hne0]
    have hnz : getCell (solved_board n) (n - 1 - py / c) (px / c) ≠ 0 := by
      rw [hpiece, if_neg hz]
      exact Nat.succ_ne_zero _
    have hw := drawCells_write n c solved.side solved (solved_board n)
      (n - 1 - py / c) (px / c) px py hd hfit hnz hib
      ((List.range n).flatMap (fun a => (List.range n).map (fun bb => (a, bb))))
      (new_rgba8 solved.side) img (new_rgba8_side solved.side) (cellList_bounds n)
      ((mem_cellList n _ _).mpr ⟨hrown, hcol⟩)
      (fun rc hmem hne2 hib2 => by
        obtain ⟨r2, c2⟩ := rc
        obtain ⟨hr2, hc2⟩ := (mem_cellList n r2 c2).mp hmem
        obtain ⟨he1, he2⟩ := inBlock_unique n c solved.side r2 c2
          (n - 1 - py / c) (px / c) px py hfit hr2 hrown hib2 hib
        exact hne2 (by rw [he1, he2]))
      hsome
    rw [hw]
    have hpv : getCell (solved_board n) (n - 1 - py / c) (px / c)
        = (n - (n - 1 - py / c) - 1) * n + (px / c) + 1 := by
      rw [hpiece, if_neg hz]
    rw [hpv]
    have hm1 : (n - (n - 1 - py / c) - 1) * n + (px / c) + 1 - 1
        = (n - (n - 1 - py / c) - 1) * n + (px / c) := by omega
    rw [hm1, mul_add_mod_eq n _ _ hcol, mul_add_div_eq n _ _ hcol]
    have hxeq : (px / c) * c + (px - (px / c) * c) = px := by omega
    have hrowinv : n - (n - 1 - py / c) - 1 = py / c := by omega
    have hyeq : (n - (n - 1 - py / c) - 1) * c
        + (py - (solved.side - ((n - 1 - py / c) + 1) * c)) = py := by
      rw [hrowinv, hyblock1]
      omega
    rw [hxeq, hyeq]

/-- C6 witness: the amended statement at the 2×2 solved board with a concrete
2×2 image, evaluated at pixel (1, 1) — the empty cell's block. -/
theorem update_image_solved_board_witness :
    ∃ img, update_image 2 (solved_board 2) ⟨2, fun p q => p + 2 * q + 1⟩ = some img ∧
      img.side = 2 ∧
      img.pix 1 1 = if inBlock 1 2 0 (2 - 1) 1 1 then 0
        else (⟨2, fun p q => p + 2 * q + 1⟩ : Image).pix 1 1 :=
  update_image_solved_board 2 1 ⟨2, fun p q => p + 2 * q + 1⟩ 1 1 (by decide) (by decide)
    (by decide) (by decide)
